import Mathlib

/-!
Shallow embedding of `src/backend/app/services/cv_analysis.py` (rule-based CV
analysis service) and proofs about its specified behaviour.

Modelling conventions:
* A Python `str` is modelled as `List Char`.  All inputs relevant to the
  claims are ASCII, so character classes are modelled at ASCII precision:
  `str.lower()` becomes `List.map Char.toLower`, the regex class `\s` becomes
  the six ASCII whitespace characters, `\d` becomes `Char.isDigit`,
  `[a-zA-Z]` becomes `Char.isAlpha`, and `\w` (which underlies `\b`) becomes
  `Char.isAlphanum || (· = '_')`.
* The Python `in` substring test is modelled by an executable search
  `substrB`, proved equivalent to `List.IsInfix` (`<:+:`).
* `re.findall(r'\b[a-z]+\b', s)`: a match of this pattern is exactly a
  maximal run of `\w`-characters of `s` all of whose characters lie in
  `[a-z]` (a shorter sub-run never matches because `\b` fails between two
  `\w`-characters, and a run containing a `\w`-character outside `[a-z]`
  never yields a match).  It is embedded as: list the maximal `\w`-runs,
  keep those consisting of `[a-z]` characters only.
* `re.findall(bullet_pattern, s, re.MULTILINE)` is embedded by an explicit
  left-to-right scan (`findBullets`) that reproduces the backtracking
  semantics of `^[\s]*[•\-\*◦]+[\s]*.+$`; see the comments at `matchAt`.
* Recursions whose argument is not structurally decreasing use explicit
  fuel `length + 1`; every recursive call strictly decreases the list
  length, so this fuel is never exhausted and the functions compute by
  kernel reduction.
-/

/-- ASCII whitespace, the characters matched by the regex class `\s`
(space, tab, newline, carriage return, form feed, vertical tab). -/
def isWs (c : Char) : Bool :=
  c = ' ' || c = '\t' || c = '\n' || c = '\r' || c = '\x0b' || c = '\x0c'

/-- Bullet glyphs, the regex class `[•\-\*◦]` from `count_quantified_bullets`. -/
def isGlyph (c : Char) : Bool :=
  c = '•' || c = '-' || c = '*' || c = '◦'

/-- Word characters, the regex class `\w` (ASCII): letters, digits, underscore. -/
def isWordChar (c : Char) : Bool :=
  c.isAlphanum || c = '_'

/-- Characters of the regex class `[a-z]`. -/
def isAsciiLower (c : Char) : Bool :=
  'a' ≤ c && c ≤ 'z'

/-- Python `str.lower()` (ASCII). -/
def pyLower (s : List Char) : List Char :=
  s.map Char.toLower

/-- Boolean test that `needle` begins `hay` (used by the substring search). -/
def isPrefixB : List Char → List Char → Bool
  | [], _ => true
  | _ :: _, [] => false
  | a :: as, b :: bs => a == b && isPrefixB as bs

/-- Python substring containment `needle in hay`. -/
def substrB : List Char → List Char → Bool
  | needle, [] => needle.isEmpty
  | needle, c :: t => isPrefixB needle (c :: t) || substrB needle t

/-- Maximal runs of characters satisfying `p`, with fuel.  `runsF p f s`
lists, in order, the maximal contiguous blocks of `s` whose characters all
satisfy `p`; characters not satisfying `p` separate the blocks. -/
def runsF (p : Char → Bool) : Nat → List Char → List (List Char)
  | 0, _ => []
  | _ + 1, [] => []
  | f + 1, c :: t =>
    if p c then (c :: t.takeWhile p) :: runsF p f (t.dropWhile p)
    else runsF p f t

/-- Maximal runs of `\w`-characters of a string. -/
def wordRuns (s : List Char) : List (List Char) :=
  runsF isWordChar (s.length + 1) s

/-- The matches of `re.findall(r'\b[a-z]+\b', s)`: the maximal `\w`-runs of
`s` that consist entirely of `[a-z]` characters (see the header comment). -/
def tokens (s : List Char) : List (List Char) :=
  (wordRuns s).filter (fun r => r.all isAsciiLower)

/-- The stopword set of `extract_keywords` (verbatim from the source). -/
def stopwords : List (List Char) :=
  (["the", "a", "an", "and", "or", "but", "in", "on", "at", "to", "for",
    "of", "with", "by", "from", "as", "is", "are", "was", "were", "be",
    "been", "being", "have", "has", "had", "do", "does", "did", "will",
    "would", "could", "should", "may", "might", "can", "this", "that",
    "these", "those", "i", "you", "he", "she", "it", "we", "they"]).map
    String.toList

/-- The keyword-collection loop of `extract_keywords`: keep words of length
greater than 2 that are neither stopwords nor already collected, and break
as soon as the collection has reached `top_n` words (the length test happens
after the append, exactly as in the source). -/
def extractLoop (top_n : Nat) : List (List Char) → List (List Char) → List (List Char)
  | [], acc => acc.reverse
  | w :: ws, acc =>
    if 2 < w.length ∧ w ∉ stopwords ∧ w ∉ acc then
      if top_n ≤ acc.length + 1 then (w :: acc).reverse
      else extractLoop top_n ws (w :: acc)
    else extractLoop top_n ws acc

/-- Embedding of `extract_keywords(text, top_n)`.  `None` and the empty
string (both falsy in Python) yield the empty list. -/
def extract_keywords (text : Option (List Char)) (top_n : Nat) : List (List Char) :=
  match text with
  | none => []
  | some t => if t.isEmpty then [] else extractLoop top_n (tokens (pyLower t)) []

example : extract_keywords (some "The cat sat on the mat and the dog ran".toList) 5 =
    ["cat".toList, "sat".toList, "mat".toList, "dog".toList, "ran".toList] := by decide

example : extract_keywords (some "python3".toList) 30 = [] := by decide

example : extract_keywords (some "hello world".toList) 0 = ["hello".toList] := by decide

/-- Section presence record returned by `detect_sections`. -/
structure Sections where
  has_summary : Bool
  has_skills : Bool
  has_experience : Bool
  has_projects : Bool
  has_education : Bool
deriving DecidableEq

/-- Summary phrases (verbatim from the source). -/
def summary_keywords : List (List Char) :=
  (["summary", "profile", "objective", "about me"]).map String.toList

/-- Skills phrases (verbatim from the source). -/
def skills_keywords : List (List Char) :=
  (["skills", "technical skills", "competencies", "expertise"]).map String.toList

/-- Experience phrases (verbatim from the source). -/
def experience_keywords : List (List Char) :=
  (["experience", "work experience", "employment", "work history"]).map String.toList

/-- Projects phrases (verbatim from the source). -/
def projects_keywords : List (List Char) :=
  (["projects", "personal projects", "portfolio"]).map String.toList

/-- Education phrases (verbatim from the source). -/
def education_keywords : List (List Char) :=
  (["education", "academic", "degree", "university", "college"]).map String.toList

/-- Embedding of `detect_sections(cv_text)`: lower-case the text once, then
test each phrase set by plain substring search. -/
def detect_sections (cv_text : List Char) : Sections :=
  { has_summary := summary_keywords.any (fun k => substrB k (pyLower cv_text))
    has_skills := skills_keywords.any (fun k => substrB k (pyLower cv_text))
    has_experience := experience_keywords.any (fun k => substrB k (pyLower cv_text))
    has_projects := projects_keywords.any (fun k => substrB k (pyLower cv_text))
    has_education := education_keywords.any (fun k => substrB k (pyLower cv_text)) }

/-- The loop of `compare_keywords`: route each keyword to `matched` or
`missing` by the substring test `keyword.lower() in cv_lower`. -/
def compareLoop (cvl : List Char) : List (List Char) → List (List Char) × List (List Char)
  | [] => ([], [])
  | k :: ks =>
    let r := compareLoop cvl ks
    if substrB (pyLower k) cvl then (k :: r.1, r.2) else (r.1, k :: r.2)

/-- Embedding of `compare_keywords(cv_text, jd_keywords)`. -/
def compare_keywords (cv_text : List Char) (jd_keywords : List (List Char)) :
    List (List Char) × List (List Char) :=
  compareLoop (pyLower cv_text) jd_keywords

example : compare_keywords "I use Python and React daily".toList
      ["python".toList, "java".toList, "react".toList] =
    (["python".toList, "react".toList], ["java".toList]) := by decide

/-- Head-of-list digit test (continuation of a window of the quantified
pattern). -/
def headDigit : List Char → Bool
  | [] => false
  | c :: _ => c.isDigit

/-- Head-of-list letter test (continuation of a window of the quantified
pattern). -/
def headAlpha : List Char → Bool
  | [] => false
  | c :: _ => c.isAlpha

/-- Embedding of `re.search(r'\d+%|\d+\+|\d+x|\d+,\d+|\d+ [a-zA-Z]+', b)`
as a Boolean.  The search succeeds iff some alternative occurs somewhere in
`b`; since `%`, `+`, `x`, `,` and the space are not digits, an occurrence of
`\d+X` is the same thing as a digit immediately followed by `X` (take the
last digit of the matched run, or conversely a single digit is a valid
`\d+`), an occurrence of `\d+,\d+` is a digit immediately followed by a
comma and a digit, and an occurrence of `\d+ [a-zA-Z]+` is a digit
immediately followed by a space and a letter.  The scanner below checks
exactly these windows at every position. -/
def quantifiedPattern : List Char → Bool
  | [] => false
  | [_] => false
  | c1 :: c2 :: rest =>
    (c1.isDigit && (c2 == '%' || c2 == '+' || c2 == 'x'
      || (c2 == ',' && headDigit rest) || (c2 == ' ' && headAlpha rest)))
    || quantifiedPattern (c2 :: rest)

example : quantifiedPattern "Improved latency by 40%".toList = true := by decide
example : quantifiedPattern "Led a team of 10 engineers".toList = true := by decide
example : quantifiedPattern ("Led 10" ++ "\t" ++ "engineers").toList = false := by decide

/-- Tail step of the bullet-pattern match, after the leading whitespace
`ws1`, the glyph run `gl` and the inner whitespace run `ws2` and its
remainder `t3` have been isolated.  This reproduces the backtracking of
`^[\s]*[•\-\*◦]+[\s]*.+$`:
* if something follows the inner whitespace (`t3` nonempty), its head is a
  non-whitespace character, so `.+` matches greedily from there to the end
  of the line;
* if the text ends inside the inner whitespace, `[\s]*` backs off to the
  last non-newline whitespace character, which `.` then consumes (`core` is
  `ws2` stripped of trailing newlines);
* failing that, the glyph run itself backs off one glyph for `.+` to
  consume, which needs at least two glyphs. -/
def matchTail2 (ws1 gl ws2 t3 : List Char) : Option (List Char × List Char) :=
  match t3 with
  | [] =>
    if ((ws2.reverse.dropWhile (fun c => c = '\n')).reverse).isEmpty then
      if 2 ≤ gl.length then some (ws1 ++ gl, ws2) else none
    else
      some (ws1 ++ gl ++ (ws2.reverse.dropWhile (fun c => c = '\n')).reverse,
        ws2.drop ((ws2.reverse.dropWhile (fun c => c = '\n')).reverse).length)
  | _ :: _ =>
    some (ws1 ++ gl ++ ws2 ++ t3.takeWhile (fun c => c ≠ '\n'),
      t3.dropWhile (fun c => c ≠ '\n'))

/-- Split off the inner whitespace run after the glyphs and continue. -/
def matchTail (ws1 gl t2 : List Char) : Option (List Char × List Char) :=
  matchTail2 ws1 gl (t2.takeWhile isWs) (t2.dropWhile isWs)

/-- Require a nonempty glyph run after the leading whitespace (backing off
the leading `[\s]*` cannot help, since a glyph is not whitespace). -/
def matchGlyphs (ws1 t1 : List Char) : Option (List Char × List Char) :=
  if (t1.takeWhile isGlyph).isEmpty then none
  else matchTail ws1 (t1.takeWhile isGlyph) (t1.dropWhile isGlyph)

/-- Attempt to match `^[\s]*[•\-\*◦]+[\s]*.+$` at a line start.  On success
returns the matched string together with the remaining text after the match
(the scan of `re.findall` resumes there).  The leading `[\s]*` is greedy and
may cross newlines, exactly as in the Python pattern. -/
def matchAt (s : List Char) : Option (List Char × List Char) :=
  matchGlyphs (s.takeWhile isWs) (s.dropWhile isWs)

/-- Advance to the next line start: drop up to and including the next
newline.  After a failed attempt, and after a successful match (which always
ends at a line end with a non-newline last character), `^` can next match
only there. -/
def nextLineStart (s : List Char) : Option (List Char) :=
  match s.dropWhile (fun c => c ≠ '\n') with
  | [] => none
  | _ :: t => some t

/-- Fuelled scan of `re.findall(bullet_pattern, s, re.MULTILINE)`: at each
line start attempt a match; on success record it and resume after it,
otherwise move to the next line start. -/
def findBulletsFuel : Nat → List Char → List (List Char)
  | 0, _ => []
  | f + 1, s =>
    match matchAt s with
    | some (m, rest) =>
      m :: (match nextLineStart rest with
            | none => []
            | some t => findBulletsFuel f t)
    | none =>
      match nextLineStart s with
      | none => []
      | some t => findBulletsFuel f t

/-- All bullet matches of the text (each recursive step strictly shortens
the text, so `length + 1` fuel always suffices). -/
def findBullets (s : List Char) : List (List Char) :=
  findBulletsFuel (s.length + 1) s

/-- Embedding of `count_quantified_bullets(cv_text)`. -/
def count_quantified_bullets (cv_text : List Char) : Nat × Nat :=
  ((findBullets cv_text).countP quantifiedPattern, (findBullets cv_text).length)

example : count_quantified_bullets ("- Improved latency by 40%\n- Helped team").toList =
    (1, 2) := by decide
example : count_quantified_bullets "* Led a team of 10 engineers".toList = (1, 1) := by decide
example : count_quantified_bullets "- ".toList = (0, 1) := by decide
example : count_quantified_bullets "-".toList = (0, 0) := by decide
example : count_quantified_bullets "--".toList = (0, 1) := by decide
example : count_quantified_bullets ("- Led 10" ++ "\t" ++ "engineers").toList = (0, 1) := by decide
example : count_quantified_bullets ("-" ++ "\n" ++ "abc").toList = (0, 1) := by decide
example : count_quantified_bullets ("- a" ++ "\n\n" ++ "- b").toList = (0, 2) := by decide
example : count_quantified_bullets ("x " ++ "\n" ++ "- b").toList = (0, 1) := by decide
example : count_quantified_bullets ("-" ++ "\n").toList = (0, 0) := by decide
example : count_quantified_bullets "- 5,000 users".toList = (1, 1) := by decide
example : count_quantified_bullets "- grew 3x".toList = (1, 1) := by decide
example : count_quantified_bullets "- 10+ reports".toList = (1, 1) := by decide
example : count_quantified_bullets "-x".toList = (0, 1) := by decide
example : count_quantified_bullets ("- a" ++ "\r\n" ++ "- b").toList = (0, 2) := by decide
example : count_quantified_bullets ("-" ++ "\n\n" ++ "  x").toList = (0, 1) := by decide
example : findBullets ("- a" ++ "\n" ++ "-" ++ "\n" ++ "- y").toList =
    ["- a".toList, ("-" ++ "\n" ++ "- y").toList] := by decide

/-- Result record of `analyze_cv`. -/
structure RuleBasedResult where
  has_summary : Bool
  has_skills : Bool
  has_experience : Bool
  has_projects : Bool
  has_education : Bool
  quantified_bullet_count : Nat
  total_bullet_count : Nat
deriving DecidableEq

/-- Embedding of `analyze_cv(cv_text, jd_text)`: compose the section
detector and the bullet quantifier; `jd_text` is accepted but never read. -/
def analyze_cv (cv_text : List Char) (jd_text : Option (List Char)) : RuleBasedResult :=
  { has_summary := (detect_sections cv_text).has_summary
    has_skills := (detect_sections cv_text).has_skills
    has_experience := (detect_sections cv_text).has_experience
    has_projects := (detect_sections cv_text).has_projects
    has_education := (detect_sections cv_text).has_education
    quantified_bullet_count := (count_quantified_bullets cv_text).1
    total_bullet_count := (count_quantified_bullets cv_text).2 }

/-- Propositional characterisation of a maximal `p`-run of `s`: a nonempty
block of `p`-characters whose neighbours on both sides (when they exist)
fail `p`. -/
def MaximalRun (p : Char → Bool) (r s : List Char) : Prop :=
  r ≠ [] ∧ r.all p = true ∧
    ∃ pre post, s = pre ++ r ++ post ∧
      (∀ c, pre.getLast? = some c → p c = false) ∧
      (∀ c, post.head? = some c → p c = false)

/-- Propositional statement of the quantified-metric criterion implemented
by the source regex `\d+%|\d+\+|\d+x|\d+,\d+|\d+ [a-zA-Z]+`: the bullet
contains a digit followed by `%`, `+` or `x`, digits around a comma, or a
digit followed by a single space character and a letter. -/
def QuantifiedSpec (b : List Char) : Prop :=
  (∃ c, c.isDigit = true ∧ [c, '%'] <:+: b) ∨
  (∃ c, c.isDigit = true ∧ [c, '+'] <:+: b) ∨
  (∃ c, c.isDigit = true ∧ [c, 'x'] <:+: b) ∨
  (∃ c d, c.isDigit = true ∧ d.isDigit = true ∧ [c, ',', d] <:+: b) ∨
  (∃ c d, c.isDigit = true ∧ d.isAlpha = true ∧ [c, ' ', d] <:+: b)

/-- Modelled from the spec (claim C5's wording): the same criterion with the
bare-number alternative relaxed to ANY whitespace character between the
digits and the word, which is what the claim asserts the code accepts. -/
def QuantifiedSpecClaimed (b : List Char) : Prop :=
  (∃ c, c.isDigit = true ∧ [c, '%'] <:+: b) ∨
  (∃ c, c.isDigit = true ∧ [c, '+'] <:+: b) ∨
  (∃ c, c.isDigit = true ∧ [c, 'x'] <:+: b) ∨
  (∃ c d, c.isDigit = true ∧ d.isDigit = true ∧ [c, ',', d] <:+: b) ∨
  (∃ c w d, c.isDigit = true ∧ isWs w = true ∧ d.isAlpha = true ∧ [c, w, d] <:+: b)

/-- Modelled from the spec (claim C2's wording): the tokenizer the claim
describes, which takes the maximal runs of LETTERS of the text, with
digits and every other non-letter character acting as separators. -/
def claimedLetterTokens (s : List Char) : List (List Char) :=
  runsF isAsciiLower (s.length + 1) s

/-! ## Helper lemmas -/

theorem glyph_not_ws {c : Char} (h : isGlyph c = true) : isWs c = false := by
  simp only [isGlyph, Bool.or_eq_true, decide_eq_true_eq] at h
  rcases h with ((rfl | rfl) | rfl) | rfl <;> rfl

theorem ws_not_glyph {c : Char} (h : isWs c = true) : isGlyph c = false := by
  simp only [isWs, Bool.or_eq_true, decide_eq_true_eq] at h
  rcases h with ((((rfl | rfl) | rfl) | rfl) | rfl) | rfl <;> rfl

theorem glyph_not_digit {c : Char} (h : isGlyph c = true) : c.isDigit = false := by
  simp only [isGlyph, Bool.or_eq_true, decide_eq_true_eq] at h
  rcases h with ((rfl | rfl) | rfl) | rfl <;> rfl

theorem ws_not_digit {c : Char} (h : isWs c = true) : c.isDigit = false := by
  simp only [isWs, Bool.or_eq_true, decide_eq_true_eq] at h
  rcases h with ((((rfl | rfl) | rfl) | rfl) | rfl) | rfl <;> rfl

theorem glyph_ne_nl {c : Char} (h : isGlyph c = true) : c ≠ '\n' := by
  simp only [isGlyph, Bool.or_eq_true, decide_eq_true_eq] at h
  rcases h with ((rfl | rfl) | rfl) | rfl <;> decide

theorem quantifiedPattern_eq_false {l : List Char} (h : ∀ x ∈ l, x.isDigit = false) :
    quantifiedPattern l = false := by
  induction l with
  | nil => rfl
  | cons c1 t ih =>
    cases t with
    | nil => rfl
    | cons c2 rest =>
      rw [quantifiedPattern]
      have h1 : c1.isDigit = false := h c1 (by simp)
      rw [h1]
      simp only [Bool.false_and, Bool.false_or]
      exact ih (fun x hx => h x (List.mem_cons_of_mem c1 hx))

theorem isPrefixB_iff (n h : List Char) : isPrefixB n h = true ↔ n <+: h := by
  induction n generalizing h with
  | nil => simp [isPrefixB]
  | cons a as ih =>
    cases h with
    | nil => simp [isPrefixB]
    | cons b bs => simp [isPrefixB, List.cons_prefix_cons, ih]

theorem substrB_iff (n h : List Char) : substrB n h = true ↔ n <:+: h := by
  induction h with
  | nil => simp [substrB, List.isEmpty_iff]
  | cons c t ih => simp [substrB, isPrefixB_iff, ih, List.infix_cons_iff]

theorem toLower_eq_self {c : Char} (h : isAsciiLower c = true) : c.toLower = c := by
  have h1 : 'a' ≤ c := by
    simp [isAsciiLower] at h; exact h.1
  have h97 : 97 ≤ c.toNat := by
    have h2 := Char.le_def.mp h1
    have h3 := UInt32.le_def.mp h2
    have h4 := BitVec.le_def.mp h3
    simpa using h4
  unfold Char.toLower
  rw [if_neg]
  omega

theorem pyLower_of_lower {l : List Char} (h : l.all isAsciiLower = true) : pyLower l = l := by
  induction l with
  | nil => rfl
  | cons c t ih =>
    simp only [List.all_cons, Bool.and_eq_true] at h
    simp only [pyLower, List.map_cons]
    rw [toLower_eq_self h.1]
    have ht := ih h.2
    simp only [pyLower] at ht
    rw [ht]

theorem head?_dropWhile {p : Char → Bool} {l : List Char} {x : Char}
    (hx : (l.dropWhile p).head? = some x) : p x = false := by
  have h := List.head?_dropWhile_not p l
  rw [hx] at h
  exact h

theorem dropWhile_ne_nil_of_getLast {p : Char → Bool} {l : List Char} {x : Char}
    (hl : l.getLast? = some x) (hpx : p x = false) : l.dropWhile p ≠ [] := by
  intro hnil
  rw [List.dropWhile_eq_nil_iff] at hnil
  obtain ⟨ys, rfl⟩ := List.getLast?_eq_some_iff.mp hl
  have : p x = true := hnil x (by simp)
  simp [hpx] at this

theorem getLast?_dropWhile_of_ne_nil {p : Char → Bool} {l : List Char}
    (h : l.dropWhile p ≠ []) : (l.dropWhile p).getLast? = l.getLast? := by
  conv_rhs => rw [← List.takeWhile_append_dropWhile p l]
  rw [List.getLast?_append_of_ne_nil _ h]

theorem runsF_mem_iff (p : Char → Bool) :
    ∀ f s r, s.length < f → (r ∈ runsF p f s ↔ MaximalRun p r s) := by
  intro f
  induction f with
  | zero => intro s r h; omega
  | succ f ih =>
    intro s r hlen
    cases s with
    | nil =>
      simp only [runsF, List.not_mem_nil, false_iff]
      rintro ⟨hne, _, pre, post, heq, _, _⟩
      have : pre = [] ∧ r ++ post = [] := by
        simpa using heq.symm
      rcases List.append_eq_nil.mp this.2 with ⟨rfl, -⟩
      exact hne rfl
    | cons c t =>
      have hlt : t.length < f := by simp at hlen; omega
      by_cases hp : p c = true
      · rw [runsF, if_pos hp, List.mem_cons]
        have hdlt : (t.dropWhile p).length < f :=
          Nat.lt_of_le_of_lt (t.dropWhile_suffix p).length_le hlt
        constructor
        · rintro (rfl | hmem)
          · refine ⟨by simp, by simp [hp], [], t.dropWhile p, by simp, by simp, ?_⟩
            intro x hx
            exact head?_dropWhile hx
          · obtain ⟨hne, hall, pre', post', heq', hlast', hhead'⟩ :=
              (ih (t.dropWhile p) r hdlt).mp hmem
            have hpre' : pre' ≠ [] := by
              rintro rfl
              cases r with
              | nil => exact hne rfl
              | cons r0 r' =>
                have h0 : (t.dropWhile p).head? = some r0 := by
                  rw [heq']; simp
                have hfalse := head?_dropWhile h0
                have htrue : p r0 = true := by
                  simp [List.all_eq_true] at hall
                  exact hall.1
                simp [htrue] at hfalse
            refine ⟨hne, hall, c :: (t.takeWhile p ++ pre'), post', ?_, ?_, hhead'⟩
            · have hteq : t = t.takeWhile p ++ (pre' ++ r ++ post') := by
                conv_lhs => rw [← List.takeWhile_append_dropWhile p t]
                rw [heq']
              conv_lhs => rw [hteq]
              simp
            · intro x hx
              apply hlast' x
              rw [← hx]
              rw [show c :: (t.takeWhile p ++ pre') = (c :: t.takeWhile p) ++ pre' by simp]
              rw [List.getLast?_append_of_ne_nil _ hpre']
        · rintro ⟨hne, hall, pre, post, heq, hlast, hhead⟩
          cases pre with
          | nil =>
            left
            cases r with
            | nil => exact absurd rfl hne
            | cons r0 r' =>
              simp only [List.nil_append, List.cons_append, List.cons.injEq] at heq
              obtain ⟨rfl, ht⟩ := heq
              have hr' : ∀ x ∈ r', p x = true := by
                simp [List.all_eq_true] at hall
                exact fun x hx => hall.2 x hx
              have htw : t.takeWhile p = r' := by
                rw [ht, List.takeWhile_append_of_pos hr']
                cases post with
                | nil => simp
                | cons q qs =>
                  have : p q = false := hhead q rfl
                  simp [List.takeWhile_cons, this]
              rw [htw]
          | cons d pre' =>
            simp only [List.cons_append, List.cons.injEq] at heq
            obtain ⟨rfl, ht⟩ := heq
            have hpre' : pre' ≠ [] := by
              rintro rfl
              have : p c = false := hlast c rfl
              simp [hp] at this
            have hlastp : ∀ x, pre'.getLast? = some x → p x = false := by
              intro x hx
              apply hlast
              rw [show (c :: pre').getLast? = pre'.getLast? from
                List.getLast?_append_of_ne_nil [c] hpre']
              exact hx
            right
            apply (ih (t.dropWhile p) r hdlt).mpr
            obtain ⟨x, hx⟩ : ∃ x, pre'.getLast? = some x := by
              cases hpxx : pre'.getLast? with
              | none => exact absurd (List.getLast?_eq_none_iff.mp hpxx) hpre'
              | some y => exact ⟨y, rfl⟩
            have hdw : pre'.dropWhile p ≠ [] := dropWhile_ne_nil_of_getLast hx (hlastp x hx)
            refine ⟨hne, hall, pre'.dropWhile p, post, ?_, ?_, hhead⟩
            · rw [ht, show pre' ++ r ++ post = pre' ++ (r ++ post) by simp,
                List.dropWhile_append]
              rw [if_neg (by simp [hdw])]
              simp
            · intro y hy
              apply hlastp y
              rw [← getLast?_dropWhile_of_ne_nil hdw]
              exact hy
      · rw [runsF, if_neg hp]
        rw [ih t r hlt]
        constructor
        · rintro ⟨hne, hall, pre, post, heq, hlast, hhead⟩
          refine ⟨hne, hall, c :: pre, post, by simp [heq], ?_, hhead⟩
          intro x hx
          cases pre with
          | nil =>
            simp at hx
            rw [← hx]
            simpa using hp
          | cons d pre' =>
            apply hlast
            rw [← hx]
            exact (List.getLast?_append_of_ne_nil [c] (by simp)).symm
        · rintro ⟨hne, hall, pre, post, heq, hlast, hhead⟩
          cases pre with
          | nil =>
            cases r with
            | nil => exact absurd rfl hne
            | cons r0 r' =>
              simp only [List.nil_append, List.cons_append, List.cons.injEq] at heq
              obtain ⟨rfl, ht⟩ := heq
              have hpc : p c = true := by
                simp [List.all_eq_true] at hall
                exact hall.1
              exact absurd hpc hp
          | cons d pre' =>
            simp only [List.cons_append, List.cons.injEq] at heq
            obtain ⟨rfl, ht⟩ := heq
            refine ⟨hne, hall, pre', post, ht, ?_, hhead⟩
            intro x hx
            apply hlast
            cases pre' with
            | nil => simp at hx
            | cons e pre'' =>
              rw [← hx]
              exact (List.getLast?_append_of_ne_nil [c] (by simp)).symm

theorem tokens_mem_iff (s r : List Char) :
    r ∈ tokens s ↔ MaximalRun isWordChar r s ∧ r.all isAsciiLower = true := by
  unfold tokens wordRuns
  rw [List.mem_filter, runsF_mem_iff isWordChar (s.length + 1) s r (by omega)]

theorem tokens_occurs {s r : List Char} (h : r ∈ tokens s) : r <:+: s := by
  obtain ⟨⟨-, -, pre, post, heq, -, -⟩, -⟩ := (tokens_mem_iff s r).mp h
  exact ⟨pre, post, heq.symm⟩

theorem tokens_lower {s r : List Char} (h : r ∈ tokens s) : r.all isAsciiLower = true :=
  ((tokens_mem_iff s r).mp h).2

theorem extractLoop_mem {n : Nat} {k : List Char} :
    ∀ ws acc, k ∈ extractLoop n ws acc → k ∈ ws ∨ k ∈ acc := by
  intro ws
  induction ws with
  | nil =>
    intro acc h
    right
    simpa [extractLoop] using h
  | cons w ws' ih =>
    intro acc h
    rw [extractLoop] at h
    split at h
    · split at h
      · rcases List.mem_reverse.mp h with h1
        rcases List.mem_cons.mp h1 with rfl | h2
        · exact Or.inl (by simp)
        · exact Or.inr h2
      · rcases ih (w :: acc) h with h1 | h2
        · exact Or.inl (List.mem_cons_of_mem w h1)
        · rcases List.mem_cons.mp h2 with rfl | h3
          · exact Or.inl (by simp)
          · exact Or.inr h3
    · rcases ih acc h with h1 | h2
      · exact Or.inl (List.mem_cons_of_mem w h1)
      · exact Or.inr h2

theorem extract_keywords_mem {t : List Char} {n : Nat} {k : List Char}
    (h : k ∈ extract_keywords (some t) n) : k ∈ tokens (pyLower t) := by
  cases t with
  | nil => simp [extract_keywords] at h
  | cons c t' =>
    simp only [extract_keywords, List.isEmpty_cons, if_false, Bool.false_eq_true] at h
    rcases extractLoop_mem _ _ h with h1 | h2
    · exact h1
    · simp at h2

theorem compareLoop_eq_filter (cvl : List Char) (K : List (List Char)) :
    compareLoop cvl K =
      (K.filter (fun k => substrB (pyLower k) cvl),
       K.filter (fun k => !(substrB (pyLower k) cvl))) := by
  induction K with
  | nil => rfl
  | cons k ks ih =>
    rw [compareLoop, ih]
    by_cases h : substrB (pyLower k) cvl = true
    · simp [List.filter_cons, h]
    · simp only [Bool.not_eq_true] at h
      simp [List.filter_cons, h]

theorem compareLoop_all_matched {cvl : List Char} {K : List (List Char)}
    (h : ∀ k ∈ K, substrB (pyLower k) cvl = true) : compareLoop cvl K = (K, []) := by
  rw [compareLoop_eq_filter]
  rw [List.filter_eq_self.mpr h]
  rw [List.filter_eq_nil_iff.mpr (fun k hk => by simp [h k hk])]

theorem QuantifiedSpec_cons {c1 : Char} {t : List Char} (h : QuantifiedSpec t) :
    QuantifiedSpec (c1 :: t) := by
  have step : ∀ w : List Char, w <:+: t → w <:+: c1 :: t := fun w hw =>
    List.infix_cons_iff.mpr (Or.inr hw)
  rcases h with ⟨c, h1, h2⟩ | ⟨c, h1, h2⟩ | ⟨c, h1, h2⟩ | ⟨c, d, h1, h1', h2⟩ | ⟨c, d, h1, h1', h2⟩
  · exact Or.inl ⟨c, h1, step _ h2⟩
  · exact Or.inr (Or.inl ⟨c, h1, step _ h2⟩)
  · exact Or.inr (Or.inr (Or.inl ⟨c, h1, step _ h2⟩))
  · exact Or.inr (Or.inr (Or.inr (Or.inl ⟨c, d, h1, h1', step _ h2⟩)))
  · exact Or.inr (Or.inr (Or.inr (Or.inr ⟨c, d, h1, h1', step _ h2⟩)))

theorem quantifiedPattern_iff (b : List Char) : quantifiedPattern b = true ↔ QuantifiedSpec b := by
  induction b with
  | nil =>
    simp only [quantifiedPattern, QuantifiedSpec]
    constructor
    · intro h; cases h
    · rintro (⟨c, _, h⟩ | ⟨c, _, h⟩ | ⟨c, _, h⟩ | ⟨c, d, _, _, h⟩ | ⟨c, d, _, _, h⟩) <;>
        · have := h.length_le; simp at this
  | cons c1 tail ih =>
    cases tail with
    | nil =>
      simp only [quantifiedPattern, QuantifiedSpec]
      constructor
      · intro h; cases h
      · rintro (⟨c, _, h⟩ | ⟨c, _, h⟩ | ⟨c, _, h⟩ | ⟨c, d, _, _, h⟩ | ⟨c, d, _, _, h⟩) <;>
          · have := h.length_le; simp at this
    | cons c2 rest =>
      constructor
      · intro h
        simp only [quantifiedPattern, Bool.or_eq_true, Bool.and_eq_true, beq_iff_eq] at h
        rcases h with ⟨hd, hc2⟩ | htail
        · rcases hc2 with (((h2 | h2) | h2) | ⟨h2, hd2⟩) | ⟨h2, ha2⟩
          · exact Or.inl ⟨c1, hd, by rw [h2]; exact ⟨[], rest, by simp⟩⟩
          · exact Or.inr (Or.inl ⟨c1, hd, by rw [h2]; exact ⟨[], rest, by simp⟩⟩)
          · exact Or.inr (Or.inr (Or.inl ⟨c1, hd, by rw [h2]; exact ⟨[], rest, by simp⟩⟩))
          · cases rest with
            | nil => simp [headDigit] at hd2
            | cons d rest' =>
              refine Or.inr (Or.inr (Or.inr (Or.inl ⟨c1, d, hd, hd2, ?_⟩)))
              rw [h2]; exact ⟨[], rest', by simp⟩
          · cases rest with
            | nil => simp [headAlpha] at ha2
            | cons d rest' =>
              refine Or.inr (Or.inr (Or.inr (Or.inr ⟨c1, d, hd, ha2, ?_⟩)))
              rw [h2]; exact ⟨[], rest', by simp⟩
        · exact QuantifiedSpec_cons (ih.mp htail)
      · intro h
        simp only [quantifiedPattern, Bool.or_eq_true, Bool.and_eq_true, beq_iff_eq]
        rcases h with ⟨c, h1, h2⟩ | ⟨c, h1, h2⟩ | ⟨c, h1, h2⟩ | ⟨c, d, h1, h1', h2⟩ | ⟨c, d, h1, h1', h2⟩
        all_goals rw [List.infix_cons_iff] at h2
        · rcases h2 with hp | hi
          · rw [List.cons_prefix_cons] at hp
            obtain ⟨rfl, hp⟩ := hp
            rw [List.cons_prefix_cons] at hp
            obtain ⟨rfl, -⟩ := hp
            exact Or.inl ⟨h1, Or.inl (Or.inl (Or.inl (Or.inl rfl)))⟩
          · exact Or.inr (ih.mpr (Or.inl ⟨c, h1, hi⟩))
        · rcases h2 with hp | hi
          · rw [List.cons_prefix_cons] at hp
            obtain ⟨rfl, hp⟩ := hp
            rw [List.cons_prefix_cons] at hp
            obtain ⟨rfl, -⟩ := hp
            exact Or.inl ⟨h1, Or.inl (Or.inl (Or.inl (Or.inr rfl)))⟩
          · exact Or.inr (ih.mpr (Or.inr (Or.inl ⟨c, h1, hi⟩)))
        · rcases h2 with hp | hi
          · rw [List.cons_prefix_cons] at hp
            obtain ⟨rfl, hp⟩ := hp
            rw [List.cons_prefix_cons] at hp
            obtain ⟨rfl, -⟩ := hp
            exact Or.inl ⟨h1, Or.inl (Or.inl (Or.inr rfl))⟩
          · exact Or.inr (ih.mpr (Or.inr (Or.inr (Or.inl ⟨c, h1, hi⟩))))
        · rcases h2 with hp | hi
          · rw [List.cons_prefix_cons] at hp
            obtain ⟨rfl, hp⟩ := hp
            rw [List.cons_prefix_cons] at hp
            obtain ⟨rfl, hp⟩ := hp
            obtain ⟨t2, ht⟩ := hp
            have hrest : rest = d :: t2 := by
              simpa using ht.symm
            subst hrest
            exact Or.inl ⟨h1, Or.inl (Or.inr ⟨rfl, by simp [headDigit, h1']⟩)⟩
          · exact Or.inr (ih.mpr (Or.inr (Or.inr (Or.inr (Or.inl ⟨c, d, h1, h1', hi⟩)))))
        · rcases h2 with hp | hi
          · rw [List.cons_prefix_cons] at hp
            obtain ⟨rfl, hp⟩ := hp
            rw [List.cons_prefix_cons] at hp
            obtain ⟨rfl, hp⟩ := hp
            obtain ⟨t2, ht⟩ := hp
            have hrest : rest = d :: t2 := by
              simpa using ht.symm
            subst hrest
            exact Or.inl ⟨h1, Or.inr ⟨rfl, by simp [headAlpha, h1']⟩⟩
          · exact Or.inr (ih.mpr (Or.inr (Or.inr (Or.inr (Or.inr ⟨c, d, h1, h1', hi⟩)))))

theorem matchAt_line (a b c : List Char)
    (ha : ∀ x ∈ a, isWs x = true ∧ x ≠ '\n')
    (hb : ∀ x ∈ b, isGlyph x = true) (hbne : b ≠ [])
    (hc : ∀ x ∈ c, isWs x = true ∧ x ≠ '\n') :
    matchAt (a ++ b ++ c) =
      if c = [] then (if 2 ≤ b.length then some (a ++ b, []) else none)
      else some (a ++ b ++ c, []) := by
  obtain ⟨g, b', rfl⟩ : ∃ g b', b = g :: b' := by
    cases b with
    | nil => exact absurd rfl hbne
    | cons g b' => exact ⟨g, b', rfl⟩
  have hgw : isWs g = false := glyph_not_ws (hb g (by simp))
  have htw1 : (a ++ (g :: b') ++ c).takeWhile isWs = a := by
    rw [List.append_assoc, List.takeWhile_append_of_pos (fun x hx => (ha x hx).1)]
    rw [List.cons_append, List.takeWhile_cons_of_neg (by simp [hgw]), List.append_nil]
  have hdw1 : (a ++ (g :: b') ++ c).dropWhile isWs = (g :: b') ++ c := by
    rw [List.append_assoc, List.dropWhile_append_of_pos (fun x hx => (ha x hx).1)]
    rw [List.cons_append, List.dropWhile_cons_of_neg (by simp [hgw])]
  have htg : ((g :: b') ++ c).takeWhile isGlyph = g :: b' := by
    rw [List.takeWhile_append_of_pos (fun x hx => hb x hx)]
    cases c with
    | nil => simp
    | cons w c' =>
      rw [List.takeWhile_cons_of_neg
        (by simp [ws_not_glyph (hc w (by simp)).1]), List.append_nil]
  have hdg : ((g :: b') ++ c).dropWhile isGlyph = c := by
    rw [List.dropWhile_append_of_pos (fun x hx => hb x hx)]
    cases c with
    | nil => rfl
    | cons w c' =>
      rw [List.dropWhile_cons_of_neg (by simp [ws_not_glyph (hc w (by simp)).1])]
  have htc : c.takeWhile isWs = c := List.takeWhile_eq_self_iff.mpr (fun x hx => (hc x hx).1)
  have hdc : c.dropWhile isWs = [] := List.dropWhile_eq_nil_iff.mpr (fun x hx => (hc x hx).1)
  have hcore : (c.reverse.dropWhile (fun x => x = '\n')).reverse = c := by
    have : c.reverse.dropWhile (fun x => x = '\n') = c.reverse := by
      cases hcr : c.reverse with
      | nil => rfl
      | cons x xs =>
        have hx : x ∈ c := List.mem_reverse.mp (by rw [hcr]; simp)
        rw [List.dropWhile_cons_of_neg (by simp [(hc x hx).2])]
    rw [this, List.reverse_reverse]
  rw [matchAt, htw1, hdw1, matchGlyphs, htg, matchTail, hdg, htc, hdc, matchTail2, hcore]
  cases c with
  | nil =>
    simp
  | cons w c' =>
    rw [if_neg (by simp), if_neg (by simp)]
    simp

theorem count_line (a b c : List Char)
    (ha : ∀ x ∈ a, isWs x = true ∧ x ≠ '\n')
    (hb : ∀ x ∈ b, isGlyph x = true) (hbne : b ≠ [])
    (hc : ∀ x ∈ c, isWs x = true ∧ x ≠ '\n') :
    count_quantified_bullets (a ++ b ++ c) =
      (0, if c = [] ∧ b.length = 1 then 0 else 1) := by
  have hnodig : ∀ x ∈ a ++ b ++ c, x.isDigit = false := by
    intro x hx
    rcases List.mem_append.mp hx with hx1 | hx3
    · rcases List.mem_append.mp hx1 with hx1 | hx2
      · exact ws_not_digit (ha x hx1).1
      · exact glyph_not_digit (hb x hx2)
    · exact ws_not_digit (hc x hx3).1
  have hm := matchAt_line a b c ha hb hbne hc
  rw [count_quantified_bullets, findBullets]
  by_cases hcc : c = []
  · subst hcc
    by_cases hlb : 2 ≤ b.length
    · rw [if_pos rfl, if_pos hlb] at hm
      rw [findBulletsFuel, hm]
      have hq : quantifiedPattern (a ++ b) = false :=
        quantifiedPattern_eq_false (fun x hx => hnodig x (by simpa using hx))
      rw [if_neg (by rintro ⟨-, h1⟩; omega)]
      simp [nextLineStart, List.countP_cons, hq]
    · rw [if_pos rfl, if_neg hlb] at hm
      rw [findBulletsFuel, hm]
      have hb1 : b.length = 1 := by
        cases b with
        | nil => exact absurd rfl hbne
        | cons g b' =>
          simp only [List.length_cons] at hlb ⊢
          omega
      have hnl : (a ++ b ++ ([] : List Char)).dropWhile (fun x => x ≠ '\n') = [] := by
        apply List.dropWhile_eq_nil_iff.mpr
        intro x hx
        rcases List.mem_append.mp (by simpa using hx) with hx1 | hx2
        · simp [(ha x hx1).2]
        · simp [glyph_ne_nl (hb x hx2)]
      rw [nextLineStart, hnl]
      simp [hb1]
  · rw [if_neg hcc] at hm
    rw [findBulletsFuel, hm]
    have hq : quantifiedPattern (a ++ b ++ c) = false := quantifiedPattern_eq_false hnodig
    have hq2 : quantifiedPattern (a ++ (b ++ c)) = false := by
      rw [← List.append_assoc]
      exact hq
    simp [nextLineStart, List.countP_cons, hq, hq2, hcc]

/-! ## Claim theorems -/

/-- Claim C1 (code bug evaluation).  The claim states that
`extract_keywords(T, limit)` returns at most `limit` keywords for every
`limit ≥ 0`, as the source's own docstring also promises ("Maximum number
of keywords to return").  The code violates this at `limit = 0`: the break
test `len(keywords) >= top_n` runs only after a keyword has been appended,
so one keyword is returned. -/
theorem extract_keywords_limit_zero_returns_one :
    extract_keywords (some "hello world".toList) 0 = ["hello".toList] ∧
    (extract_keywords (some "hello world".toList) 0).length = 1 := by decide

/-- Claim C2 (counterexample).  The claim states that digits act as token
separators and that a letter run adjacent to a digit (as in "python3") is
still produced as a token.  In fact the pattern `\b[a-z]+\b` finds no word
boundary between a letter and a digit, so "python3" produces no token at
all, while the claim's maximal-letter-run tokenizer would produce
"python". -/
theorem extract_keywords_python3_counterexample :
    claimedLetterTokens (pyLower "python3".toList) = ["python".toList] ∧
    tokens (pyLower "python3".toList) = [] ∧
    extract_keywords (some "python3".toList) 30 = [] := by decide

/-- Claim C2 (amended).  The tokenization of `extract_keywords` produces
exactly the maximal runs of word characters (letters, digits, underscore)
of the case-folded text that consist entirely of lowercase letters;
punctuation and whitespace separate tokens, but a run containing a digit or
underscore is discarded whole, so a letter run adjacent to a digit yields
no token. -/
theorem tokens_are_maximal_lowercase_word_runs (t r : List Char) :
    r ∈ tokens (pyLower t) ↔
      MaximalRun isWordChar r (pyLower t) ∧ r.all isAsciiLower = true :=
  tokens_mem_iff (pyLower t) r

/-- Claim C3 (confirmed).  `compare_keywords` partitions the keyword list:
both outputs are subsequences of the input (relative order preserved),
every keyword lands in exactly one of the two outputs, their union as a set
is the input's set, and a keyword is matched exactly when its case-folded
form is a substring of the case-folded text. -/
theorem compare_keywords_partition (t : List Char) (K : List (List Char)) :
    (compare_keywords t K).1.Sublist K ∧ (compare_keywords t K).2.Sublist K ∧
    (∀ k, k ∈ K ↔ k ∈ (compare_keywords t K).1 ∨ k ∈ (compare_keywords t K).2) ∧
    (∀ k, ¬(k ∈ (compare_keywords t K).1 ∧ k ∈ (compare_keywords t K).2)) ∧
    (∀ k, k ∈ (compare_keywords t K).1 ↔ k ∈ K ∧ pyLower k <:+: pyLower t) := by
  rw [compare_keywords, compareLoop_eq_filter]
  refine ⟨List.filter_sublist _, List.filter_sublist _, ?_, ?_, ?_⟩
  · intro k
    constructor
    · intro hk
      by_cases h : substrB (pyLower k) (pyLower t) = true
      · exact Or.inl (List.mem_filter.mpr ⟨hk, h⟩)
      · exact Or.inr (List.mem_filter.mpr ⟨hk, by simp [h]⟩)
    · rintro (h | h) <;> exact (List.mem_filter.mp h).1
  · rintro k ⟨h1, h2⟩
    have hp1 := (List.mem_filter.mp h1).2
    have hp2 := (List.mem_filter.mp h2).2
    simp [hp1] at hp2
  · intro k
    simp [List.mem_filter, substrB_iff]

/-- Claim C4 (confirmed).  `detect_sections` reports a category present
exactly when some phrase of its fixed phrase set occurs as a plain
substring of the case-folded text, each category independently; and on
"My Skills: Python, Go" only the skills flag is set. -/
theorem detect_sections_substring_characterisation :
    (∀ t : List Char,
      ((detect_sections t).has_summary = true ↔ ∃ k ∈ summary_keywords, k <:+: pyLower t) ∧
      ((detect_sections t).has_skills = true ↔ ∃ k ∈ skills_keywords, k <:+: pyLower t) ∧
      ((detect_sections t).has_experience = true ↔
        ∃ k ∈ experience_keywords, k <:+: pyLower t) ∧
      ((detect_sections t).has_projects = true ↔ ∃ k ∈ projects_keywords, k <:+: pyLower t) ∧
      ((detect_sections t).has_education = true ↔
        ∃ k ∈ education_keywords, k <:+: pyLower t)) ∧
    detect_sections "My Skills: Python, Go".toList =
      { has_summary := false, has_skills := true, has_experience := false,
        has_projects := false, has_education := false } := by
  constructor
  · intro t
    refine ⟨?_, ?_, ?_, ?_, ?_⟩ <;>
      simp [detect_sections, List.any_eq_true, substrB_iff]
  · decide

/-- Claim C5 (counterexample).  The claim states that a digit sequence
separated from the following word by ANY whitespace character (for example
a tab) counts as quantified.  The source regex requires a literal space
(`\d+ [a-zA-Z]+`), so the bullet "- Led 10<TAB>engineers", which satisfies
the claimed criterion, is counted as unquantified. -/
theorem count_quantified_bullets_tab_counterexample :
    QuantifiedSpecClaimed ("- Led 10\tengineers".toList) ∧
    count_quantified_bullets ("- Led 10\tengineers".toList) = (0, 1) := by
  constructor
  · refine Or.inr (Or.inr (Or.inr (Or.inr
      ⟨'0', '\t', 'e', by decide, by decide, by decide, ?_⟩)))
    exact ⟨"- Led 1".toList, "ngineers".toList, by decide⟩
  · decide

/-- Claim C5 (amended).  A bullet is classified as quantified exactly when
it contains a digit followed by `%`, a digit followed by `+`, a digit
followed by `x`, digits around a comma, or a digit followed by a single
space character (not arbitrary whitespace) and an alphabetic character;
`count_quantified_bullets` counts exactly the found bullets satisfying this
criterion, and the bullet "* Led a team of 10 engineers" yields (1, 1). -/
theorem quantified_single_space_characterisation :
    (∀ b, quantifiedPattern b = true ↔ QuantifiedSpec b) ∧
    (∀ t, count_quantified_bullets t =
      ((findBullets t).countP quantifiedPattern, (findBullets t).length)) ∧
    count_quantified_bullets "* Led a team of 10 engineers".toList = (1, 1) :=
  ⟨quantifiedPattern_iff, fun _ => rfl, by decide⟩

/-- Claim C6 (confirmed).  The quantified count never exceeds the total
bullet count. -/
theorem quantified_le_total (t : List Char) :
    (count_quantified_bullets t).1 ≤ (count_quantified_bullets t).2 :=
  List.countP_le_length quantifiedPattern

/-- Claim C7 (confirmed).  On the empty string the analyzer returns all
five section flags false and bullet statistics (0, 0). -/
theorem analyze_cv_empty_string :
    analyze_cv [] none =
      { has_summary := false, has_skills := false, has_experience := false,
        has_projects := false, has_education := false,
        quantified_bullet_count := 0, total_bullet_count := 0 } := by decide

/-- Claim C8 (confirmed).  The job-description argument does not influence
the analyzer's output: the result record is identical (in all seven fields)
for any two values of `jd_text`. -/
theorem analyze_cv_ignores_jd_text (cv : List Char) (jd1 jd2 : Option (List Char)) :
    analyze_cv cv jd1 = analyze_cv cv jd2 := rfl

/-- Claim C9 (confirmed).  Every keyword extracted from a text occurs in
that text's case-folded form, so comparing a text against its own extracted
keywords matches all of them and misses none. -/
theorem extracted_keywords_all_match (t : List Char) (n : Nat) :
    compare_keywords t (extract_keywords (some t) n) =
      (extract_keywords (some t) n, []) := by
  rw [compare_keywords]
  apply compareLoop_all_matched
  intro k hk
  have h1 := extract_keywords_mem hk
  have h2 := tokens_lower h1
  rw [pyLower_of_lower h2]
  exact (substrB_iff _ _).mpr (tokens_occurs h1)

/-- Claim C10 (counterexample).  The claim states that a line holding
bullet glyphs alone with no trailing character is never counted.  For the
line "--" the regex `^[\s]*[•\-\*◦]+[\s]*.+$` backtracks so that `.+`
consumes the second glyph, and the line IS counted. -/
theorem glyphs_only_line_counted_counterexample :
    count_quantified_bullets "--".toList = (0, 1) := by decide

/-- Claim C10 (amended).  For a single-line text of optional leading
whitespace, one or more bullet glyphs and trailing whitespace: the line is
counted in the total whenever trailing whitespace is present; with no
trailing character at all it is counted exactly when it holds at least two
glyphs (the extra glyph serves as the required content), and such lines are
never quantified. -/
theorem bullet_glyph_line_total_count (a b c : List Char)
    (ha : ∀ x ∈ a, isWs x = true ∧ x ≠ '\n')
    (hb : ∀ x ∈ b, isGlyph x = true) (hbne : b ≠ [])
    (hc : ∀ x ∈ c, isWs x = true ∧ x ≠ '\n') :
    count_quantified_bullets (a ++ b ++ c) =
      (0, if c = [] ∧ b.length = 1 then 0 else 1) :=
  count_line a b c ha hb hbne hc

/-- Witness for claim C10's amended theorem: instantiate it on the line
"  - " (two leading spaces, one dash, one trailing space). -/
theorem bullet_glyph_line_total_count_witness :
    ("-".toList ≠ []) ∧
    count_quantified_bullets ("  ".toList ++ "-".toList ++ " ".toList) =
      (0, if " ".toList = ([] : List Char) ∧ ("-".toList).length = 1 then 0 else 1) :=
  ⟨by decide, bullet_glyph_line_total_count "  ".toList "-".toList " ".toList
    (by decide) (by decide) (by decide) (by decide)⟩
